import Mathlib

/-!
Verification development for the circuitous repository: a shallow embedding
of the e-graph (EGraph.hpp), the e-matching pattern matcher (ematch.hpp),
the decoder synthesizer (DecoderPrinter), the shadow-instruction region
algebra (Invert / UnknownRegions) and the CLI driver (Main.cpp), together
with theorems settling the specification claims about them.
-/

set_option maxRecDepth 4000

/-! ## CLI driver (src/Main.cpp) -/

/-- Shallow embedding of `main` from src/Main.cpp, projected onto its exit
code.  `binaryIn` / `irIn` say whether the respective flag is non-empty;
`liftOk` says whether `Circuit::CreateFromInstructions` produced a circuit,
`deserOk` whether `Circuit::Deserialize` did.  `EXIT_FAILURE` is 1 and
`EXIT_SUCCESS` is 0 on every POSIX platform. -/
def mainExitCode (binaryIn irIn liftOk deserOk : Bool) : Nat :=
  -- if (!FLAGS_binary_in.empty()) { ... } else if (!FLAGS_ir_in.empty()) { ... }
  -- else { return EXIT_FAILURE; }  then  if (!circuit) return EXIT_FAILURE;
  if binaryIn then
    if liftOk then 0 else 1
  else if irIn then
    if deserOk then 0 else 1
  else 1

/-! ## Decoder tri-state bits (src/unnamed/part_001) -/

/-- The tri-state of one encoding bit: required zero, required one, or
don't-care (`InputType` in DecoderPrinter). -/
inductive InputType where
  | zero
  | one
  | ignore
deriving DecidableEq, Repr

/-- `to_val` from src/unnamed/part_001 lines 380-389. -/
def to_val (ty : InputType) : Nat :=
  match ty with
  | InputType.zero => 0
  | InputType.one => 1
  | InputType.ignore => 1

/-- `to_val_negated` from src/unnamed/part_001 lines 391-400. -/
def to_val_negated (ty : InputType) : Nat :=
  match ty with
  | InputType.zero => 1
  | InputType.one => 0
  | InputType.ignore => 0

/-- `ctoit` from src/unnamed/part_001 lines 402-409 (the `default` branch is
`unreachable`; the callers only pass characters produced by `Constant`
bit strings, so we map every other character to `ignore`, which no theorem
below depends on). -/
def ctoit (c : Char) : InputType :=
  match c with
  | '0' => InputType.zero
  | '1' => InputType.one
  | _ => InputType.ignore

/-- Modelled from the spec: `OptionalBitArray::to_uint64` and
`ignored_bits_to_uint64` live in DecoderPrinter.hpp, which is not among the
source files; spec section 4.5 describes the emitted comparison constants as
per-bit packings of the tri-states.  `packBits f bits` packs
`f bits[0], f bits[1], ...` little-endian into a natural number, so
`packBits to_val` is the expected-bits word and `packBits to_val_negated`
the cared-bits (negated-ignore) mask of the claim. -/
def packBits (f : InputType → Nat) : List InputType → Nat
  | [] => 0
  | t :: ts => f t + 2 * packBits f ts

/-! ## Region maps (src/unnamed/part_002) -/

/-- A `region_t` (`std::map<uint64_t, uint64_t>` of `{from, size}` pairs),
embedded as its key-sorted association list, which is exactly the order the
`Invert` loop visits. -/
abbrev RegionMap : Type := List (Nat × Nat)

/-- `has_regions::present` from src/unnamed/part_002 lines 153-160: does some
region `[from, from+size)` contain `idx`? -/
def present (regions : RegionMap) (idx : Nat) : Bool :=
  regions.any fun fs => fs.1 ≤ idx && idx < fs.1 + fs.2

/-- The loop body of `Invert` (src/unnamed/part_002 lines 60-74): walk the
regions in key order keeping the cursor `current`, emitting the gap before
each region, and finish with the gap up to `lenght`. -/
def invertFrom (current lenght : Nat) : RegionMap → RegionMap
  | [] => if current ≠ lenght then [(current, lenght - current)] else []
  | (from_, size) :: rest =>
      (if current ≠ from_ then [(current, from_ - current)] else []) ++
        invertFrom (from_ + size) lenght rest

/-- `Invert(what, lenght)` from src/unnamed/part_002 lines 60-74. -/
def Invert (what : RegionMap) (lenght : Nat) : RegionMap :=
  invertFrom 0 lenght what

/-- `std::map::operator[] = size` insertion used by
`Instruction::IdentifiedRegions`: insert keeping keys sorted, overwriting an
existing key. -/
def mapInsert (from_ size : Nat) : RegionMap → RegionMap
  | [] => [(from_, size)]
  | (f, s) :: rest =>
      if from_ < f then (from_, size) :: (f, s) :: rest
      else if from_ = f then (from_, size) :: rest
      else (f, s) :: mapInsert from_ size rest

/-- `Instruction::IdentifiedRegions` (src/unnamed/part_002 lines 604-645),
with each operand attribute already projected to its `(from, size)` region
list: the method just writes every such pair into one `region_t`. -/
def IdentifiedRegions (operandRegions : List (List (Nat × Nat))) : RegionMap :=
  operandRegions.foldl (fun out rs => rs.foldl (fun o fs => mapInsert fs.1 fs.2 o) out) []

/-- `Instruction::UnknownRegions(lenght)` from src/unnamed/part_002
lines 648-651. -/
def UnknownRegions (operandRegions : List (List (Nat × Nat))) (lenght : Nat) : RegionMap :=
  Invert (IdentifiedRegions operandRegions) lenght

/-- The precondition of claim C9 relative to a cursor: the regions are
key-sorted, pairwise disjoint (allowing adjacency, which the claim's
strictly stronger non-adjacency implies) and contained in `[0, lenght)`. -/
def ChainFrom (current : Nat) (lenght : Nat) : RegionMap → Prop
  | [] => current ≤ lenght
  | (from_, size) :: rest => current ≤ from_ ∧ ChainFrom (from_ + size) lenght rest

instance chainFromDecidable (current lenght : Nat) (rs : RegionMap) :
    Decidable (ChainFrom current lenght rs) := by
  induction rs generalizing current with
  | nil => exact inferInstanceAs (Decidable (current ≤ lenght))
  | cons fs rest ih =>
    exact inferInstanceAs (Decidable (current ≤ fs.1 ∧ ChainFrom (fs.1 + fs.2) lenght rest))

/-! ## Theorems for C7 and C10 -/

/-- C7 counterexample: with a binary input supplied and the lift failing,
`main` returns `EXIT_FAILURE` (1), not 2 as the claim states for
lift/deserialize failures. -/
theorem c7_exit_code_counterexample :
    mainExitCode true false false false = 1 ∧ mainExitCode true false false false ≠ 2 := by
  decide

/-- C7 (amended): the CLI exits 0 on success and 1 both when neither input
flag is supplied and when lifting or deserializing fails; exit code 2 never
occurs. -/
theorem c7_exit_codes (binaryIn irIn liftOk deserOk : Bool) :
    mainExitCode binaryIn irIn liftOk deserOk =
      (if binaryIn = false ∧ irIn = false then 1
       else if (binaryIn ∧ ¬liftOk) ∨ (¬binaryIn ∧ irIn ∧ ¬deserOk) then 1
       else 0) ∧
    mainExitCode binaryIn irIn liftOk deserOk ≠ 2 := by
  cases binaryIn <;> cases irIn <;> cases liftOk <;> cases deserOk <;> simp [mainExitCode]

theorem packBits_testBit_zero (f : InputType → Nat) (hf : ∀ t, f t ≤ 1)
    (t : InputType) (ts : List InputType) :
    Nat.testBit (packBits f (t :: ts)) 0 = decide (f t = 1) := by
  have h := hf t
  simp only [packBits, Nat.testBit_zero]
  interval_cases h : f t <;> simp [Nat.add_mul_mod_self_left]

theorem packBits_testBit_succ (f : InputType → Nat) (hf : ∀ t, f t ≤ 1)
    (t : InputType) (ts : List InputType) (i : Nat) :
    Nat.testBit (packBits f (t :: ts)) (i + 1) = Nat.testBit (packBits f ts) i := by
  have h := hf t
  have hdiv : (f t + 2 * packBits f ts) / 2 = packBits f ts := by omega
  simp only [packBits, Nat.testBit_succ, hdiv]

/-- C10: `to_val` and `to_val_negated` sum to 1 on every `InputType`, and
consequently the expected-bits word and the cared-bits (negated-ignore) mask
packed from them are exact bitwise complements on every bit position of the
packed array (in particular an ignore bit contributes 1 to the former and 0
to the latter). -/
theorem c10_to_val_complement :
    (∀ t, to_val t + to_val_negated t = 1) ∧
    (∀ (bits : List InputType) (i : Nat), i < bits.length →
      Nat.testBit (packBits to_val bits) i = !Nat.testBit (packBits to_val_negated bits) i) := by
  have hval : ∀ t, to_val t ≤ 1 := by intro t; cases t <;> decide
  have hneg : ∀ t, to_val_negated t ≤ 1 := by intro t; cases t <;> decide
  refine ⟨fun t => by cases t <;> decide, ?_⟩
  intro bits
  induction bits with
  | nil => intro i h; simp at h
  | cons t ts ih =>
    intro i hi
    cases i with
    | zero =>
      rw [packBits_testBit_zero to_val hval, packBits_testBit_zero to_val_negated hneg]
      cases t <;> decide
    | succ j =>
      rw [packBits_testBit_succ to_val hval, packBits_testBit_succ to_val_negated hneg]
      exact ih j (by simpa using hi)

/-- C10 witness: the complement theorem applied at the concrete tri-state
array `[zero, one, ignore]` and bit position 1. -/
theorem c10_to_val_complement_witness :
    1 < ([InputType.zero, InputType.one, InputType.ignore] : List InputType).length ∧
      Nat.testBit (packBits to_val [InputType.zero, InputType.one, InputType.ignore]) 1 =
        !Nat.testBit (packBits to_val_negated [InputType.zero, InputType.one, InputType.ignore]) 1 :=
  ⟨by decide, c10_to_val_complement.2 [InputType.zero, InputType.one, InputType.ignore] 1 (by decide)⟩

/-! ## Theorems for C9 -/

theorem present_chain_le (rs : RegionMap) (c l idx : Nat) (hch : ChainFrom c l rs)
    (h : present rs idx = true) : c ≤ idx := by
  induction rs generalizing c with
  | nil => simp [present] at h
  | cons fs rest ih =>
    obtain ⟨f, s⟩ := fs
    obtain ⟨h1, h2⟩ := hch
    simp only [present, List.any_cons, Bool.or_eq_true, Bool.and_eq_true,
      decide_eq_true_eq] at h
    rcases h with h | h
    · omega
    · have := ih (f + s) h2 h
      omega

theorem invertFrom_le (rs : RegionMap) (c l idx : Nat) (hch : ChainFrom c l rs)
    (h : present (invertFrom c l rs) idx = true) : c ≤ idx := by
  induction rs generalizing c with
  | nil =>
    simp only [invertFrom] at h
    split at h
    · simp only [present, List.any_cons, List.any_nil, Bool.or_false,
        Bool.and_eq_true, decide_eq_true_eq] at h
      omega
    · simp [present] at h
  | cons fs rest ih =>
    obtain ⟨f, s⟩ := fs
    obtain ⟨h1, h2⟩ := hch
    simp only [invertFrom, present, List.any_append, Bool.or_eq_true] at h
    rcases h with h | h
    · split at h
      · simp only [List.any_cons, List.any_nil, Bool.or_false, Bool.and_eq_true,
          decide_eq_true_eq] at h
        omega
      · simp at h
    · have := ih (f + s) h2 h
      omega

theorem present_invertFrom (rs : RegionMap) (c l idx : Nat) (hch : ChainFrom c l rs)
    (hc : c ≤ idx) (hl : idx < l) :
    present rs idx = !present (invertFrom c l rs) idx := by
  induction rs generalizing c with
  | nil =>
    have hne : c ≠ l := by omega
    simp only [invertFrom, if_pos hne, present, List.any_cons, List.any_nil,
      Bool.or_false, List.any_nil]
    have h1 : decide (c ≤ idx) = true := by simpa using hc
    have h2 : decide (idx < c + (l - c)) = true := by
      simp only [decide_eq_true_eq]; omega
    simp [h1, h2]
  | cons fs rest ih =>
    obtain ⟨f, s⟩ := fs
    obtain ⟨h1, h2⟩ := hch
    by_cases hf : idx < f
    · have hrest : present rest idx = false := by
        cases hp : present rest idx
        · rfl
        · have := present_chain_le rest (f + s) l idx h2 hp; omega
      have hinv : present (invertFrom (f + s) l rest) idx = false := by
        cases hp : present (invertFrom (f + s) l rest) idx
        · rfl
        · have := invertFrom_le rest (f + s) l idx h2 hp; omega
      have hcf : c ≠ f := by omega
      simp only [present, invertFrom, if_pos hcf, List.any_append, List.any_cons,
        List.any_nil, Bool.or_false] at *
      simp only [hrest, hinv, Bool.or_false]
      have hx : decide (f ≤ idx) = false := by simp; omega
      have hy : decide (c ≤ idx) = true := by simpa using hc
      have hz : decide (idx < c + (f - c)) = true := by simp; omega
      simp [hx, hy, hz]
    · by_cases hfs : idx < f + s
      · have hinv : present (invertFrom (f + s) l rest) idx = false := by
          cases hp : present (invertFrom (f + s) l rest) idx
          · rfl
          · have := invertFrom_le rest (f + s) l idx h2 hp; omega
        have hgap : present (if c ≠ f then [(c, f - c)] else []) idx = false := by
          split
          · simp only [present, List.any_cons, List.any_nil, Bool.or_false,
              Bool.and_eq_true]
            simp; omega
          · simp [present]
        simp only [present, invertFrom, List.any_append, List.any_cons, List.any_nil,
          Bool.or_false] at *
        simp only [hgap, hinv, Bool.or_false]
        have hx : decide (f ≤ idx) = true := by simp; omega
        have hy : decide (idx < f + s) = true := by simpa using hfs
        simp [hx, hy]
      · have hgap : present (if c ≠ f then [(c, f - c)] else []) idx = false := by
          split
          · simp only [present, List.any_cons, List.any_nil, Bool.or_false]
            simp; omega
          · simp [present]
        have hrec := ih (f + s) h2 (by omega)
        simp only [present, invertFrom, List.any_append, List.any_cons, List.any_nil,
          Bool.or_false] at *
        simp only [hgap, Bool.false_or]
        have hx : decide (idx < f + s) = false := by simp; omega
        simp only [hx, Bool.and_false, Bool.false_or]
        exact hrec

/-- C9: for every region map that is key-sorted, pairwise disjoint and
contained in `[0, lenght)` (the claim's hypotheses, with adjacency also
allowed), `Invert` produces the exact complement — every index below
`lenght` is covered by exactly one of the map and its inversion — and in
particular `Instruction::UnknownRegions(lenght)` covers precisely the
positions that `IdentifiedRegions()` does not. -/
theorem c9_invert_exact_complement :
    (∀ (regions : RegionMap) (lenght : Nat), ChainFrom 0 lenght regions →
      ∀ idx, idx < lenght → present regions idx = !present (Invert regions lenght) idx) ∧
    (∀ (ops : List (List (Nat × Nat))) (lenght : Nat),
      ChainFrom 0 lenght (IdentifiedRegions ops) →
      ∀ idx, idx < lenght →
        present (IdentifiedRegions ops) idx = !present (UnknownRegions ops lenght) idx) := by
  constructor
  · intro regions lenght h idx hidx
    exact present_invertFrom regions 0 lenght idx h (Nat.zero_le idx) hidx
  · intro ops lenght h idx hidx
    exact present_invertFrom _ 0 lenght idx h (Nat.zero_le idx) hidx

/-- C9 witness: the complement theorem applied to the concrete region map
`{1 ↦ 2, 5 ↦ 1}` with length 8 at index 0, and to the instruction made of
two operands with those regions at index 4. -/
theorem c9_invert_exact_complement_witness :
    (ChainFrom 0 8 ([(1, 2), (5, 1)] : RegionMap) ∧ (0 : Nat) < 8 ∧
      present [(1, 2), (5, 1)] 0 = !present (Invert [(1, 2), (5, 1)] 8) 0) ∧
    (ChainFrom 0 8 (IdentifiedRegions [[(1, 2)], [(5, 1)]]) ∧ (4 : Nat) < 8 ∧
      present (IdentifiedRegions [[(1, 2)], [(5, 1)]]) 4 =
        !present (UnknownRegions [[(1, 2)], [(5, 1)]] 8) 4) :=
  ⟨⟨by decide, by decide,
      c9_invert_exact_complement.1 [(1, 2), (5, 1)] 8 (by decide) 0 (by decide)⟩,
   ⟨by decide, by decide,
      c9_invert_exact_complement.2 [[(1, 2)], [(5, 1)]] 8 (by decide) 4 (by decide)⟩⟩

/-! ## Decoder synthesizer (src/unnamed/part_001) -/

/-- A `DecodeCondition` as DecoderPrinter reads it: operand 0 is a
`Constant` whose bit string we keep as `bits` (indexed from `low_bit_inc`),
operand 1 an `Extract` giving `low_bit_inc` / `high_bit_exc`. -/
structure DecodeCondition where
  bits : List Char
  low_bit_inc : Nat
  high_bit_exc : Nat
deriving DecidableEq, Repr

/-- One step of the condition loop of
`ExtractedCtx::convert_circIR_to_input_type_array` (src/unnamed/part_001
lines 54-81) projected on the slot for bit `c` of byte `i`: skip conditions
out of range of the byte or with `high_inc == 119`, otherwise overwrite the
slot when the condition covers the bit. -/
def convStep (i c : Nat) (val : InputType) (n : DecodeCondition) : InputType :=
  let low := n.low_bit_inc
  let high_inc := n.high_bit_exc - 1
  if low > (i + 1) * 8 ∨ high_inc < i * 8 ∨ high_inc = 119 then val
  else
    let bit_index := i * 8 + c
    if low ≤ bit_index ∧ bit_index ≤ high_inc then ctoit (n.bits.getD (bit_index - low) '0')
    else val

/-- Final value of slot `c` of byte `i` after the whole condition loop. -/
def inputBitAt (conds : List DecodeCondition) (i c : Nat) : InputType :=
  conds.foldl (convStep i c) InputType.ignore

/-- `ExtractedCtx::convert_circIR_to_input_type_array`: the 16 bytes of
8 tri-states each. -/
def convert_circIR_to_input_type_array (conds : List DecodeCondition) :
    List (List InputType) :=
  (List.range 16).map fun i => (List.range 8).map fun c => inputBitAt conds i c

/-- `convert_bytes_to_uints64` (src/unnamed/part_001 lines 362-368):
`val[i] = bytes[offset + i/8][i%8]` for `i < 64`. -/
def convert_bytes_to_uints64 (bytes : List (List InputType)) (offset : Nat) :
    List InputType :=
  (List.range 64).map fun i => (bytes.getD (offset + i / 8) []).getD (i % 8) InputType.ignore

/-- `DecoderPrinter::contains_ignore_bit` (lines 167-174). -/
def contains_ignore_bit (byte : List InputType) : Bool :=
  byte.any fun b => b = InputType.ignore

/-- `DecoderPrinter::contains_only_ignore_bit` (lines 176-183). -/
def contains_only_ignore_bit (byte : List InputType) : Bool :=
  byte.all fun b => b = InputType.ignore

/-- An `ExtractedCtx` (DecoderPrinter).  The source type additionally holds
a generated name; `cid` is the index of the context inside the
`extracted_ctxs` vector, which is also the allocation order of the
`ExtractedCtx*` pointers that the selection tree compares, since
`std::vector` storage is contiguous and `to_split` is filled in vector
order. -/
structure ExtractedCtx where
  cid : Nat
  encoding_size_in_bytes : Nat
  decodeConditions : List DecodeCondition
deriving DecidableEq, Repr

/-- `Decode_Requires_Group`: the per-bit partition of the contexts under
consideration. -/
structure Decode_Requires_Group where
  zeros : List ExtractedCtx := []
  ones : List ExtractedCtx := []
  ignores : List ExtractedCtx := []
deriving DecidableEq, Repr

/-- One step of the condition loop of
`DecoderPrinter::get_decode_requirements_per_index` (lines 320-337): the
last in-range condition (with `high_inc != 119`) wins; note this branch
writes `one` for any non-`'0'` character rather than going through
`ctoit`. -/
def reqStep (i : Nat) (val : InputType) (n : DecodeCondition) : InputType :=
  let low := n.low_bit_inc
  let high_inc := n.high_bit_exc - 1
  if low > i ∨ high_inc < i ∨ high_inc = 119 then val
  else if n.bits.getD (i - low) '0' = '0' then InputType.zero
  else InputType.one

/-- Tri-state the requirements loop computes for a condition list at bit
`i`. -/
def reqValAt (conds : List DecodeCondition) (i : Nat) : InputType :=
  conds.foldl (reqStep i) InputType.ignore

/-- The group built at bit `i` by
`DecoderPrinter::get_decode_requirements_per_index` (lines 307-352): each
context of `to_split` is appended to `zeros`, `ones` or `ignores` according
to its tri-state, and already-chosen bits retain the empty group. -/
def groupAt (to_split : List ExtractedCtx) (already_chosen_bits : List (Nat × Int))
    (i : Nat) : Decode_Requires_Group :=
  to_split.foldl
    (fun g ctx =>
      if already_chosen_bits.any (fun p => p.1 = i) then g
      else
        match reqValAt ctx.decodeConditions i with
        | InputType.zero => { g with zeros := g.zeros ++ [ctx] }
        | InputType.one => { g with ones := g.ones ++ [ctx] }
        | InputType.ignore => { g with ignores := g.ignores ++ [ctx] })
    {}

/-- `DecoderPrinter::get_decode_requirements_per_index`: the whole
120-entry array. -/
def get_decode_requirements_per_index (to_split : List ExtractedCtx)
    (already_chosen_bits : List (Nat × Int)) : List Decode_Requires_Group :=
  (List.range 120).map (groupAt to_split already_chosen_bits)

/-- `std::lexicographical_compare` on `std::vector<ExtractedCtx*>`: the
pointers compare in allocation order, i.e. by `cid`. -/
def ctxListLt : List ExtractedCtx → List ExtractedCtx → Bool
  | _, [] => false
  | [], _ :: _ => true
  | a :: as, b :: bs =>
      if a.cid < b.cid then true else if b.cid < a.cid then false else ctxListLt as bs

/-- `std::min(a, b)` on vectors: `b` if `b < a` lexicographically, else
`a`. -/
def stdMinVec (a b : List ExtractedCtx) : List ExtractedCtx :=
  if ctxListLt b a then b else a

/-- `operator<(Decode_Requires_Group, Decode_Requires_Group)` from
src/unnamed/part_001 lines 35-40: `std::min(x.zeros, x.ones)` is the
lexicographically smaller vector, and only then is `.size()` taken. -/
def groupLt (x y : Decode_Requires_Group) : Bool :=
  (stdMinVec x.zeros x.ones).length < (stdMinVec y.zeros y.ones).length

/-- `std::max_element` body: keep the current best, replace only on a
strictly greater element, return the index of the first maximum. -/
def maxElementAux (best : Decode_Requires_Group) (bestIdx idx : Nat) :
    List Decode_Requires_Group → Nat
  | [] => bestIdx
  | g :: rest =>
      if groupLt best g then maxElementAux g idx (idx + 1) rest
      else maxElementAux best bestIdx (idx + 1) rest

/-- Index returned by `std::max_element` over a group array (the array is
never empty at the call site: it always has 120 entries). -/
def maxElementIdx : List Decode_Requires_Group → Nat
  | [] => 0
  | g :: rest => maxElementAux g 0 1 rest

/-- The bit-selection step of
`DecoderPrinter::generate_decoder_selection_tree` (lines 270-273): the
`candidate_index` tested at an internal node of the selection tree for the
context set `to_split`. -/
def candidateIndex (to_split : List ExtractedCtx)
    (already_chosen_bits : List (Nat × Int)) : Nat :=
  maxElementIdx (get_decode_requirements_per_index to_split already_chosen_bits)

/-- The score the specification claims the tree maximizes:
`min(|zeros(i)|, |ones(i)|)`. -/
def minSplitScore (g : Decode_Requires_Group) : Nat :=
  min g.zeros.length g.ones.length

/-! ### Context extraction (`DecoderPrinter::extract_ctx`, lines 95-119) -/

/-- Per-context body of `extract_ctx`: find a decode condition with
`high_bit_exc == 120` (the length delimiter), fail without one; compute
`encoding_length = low_bit_inc / 8` and fail above 15. -/
def extract_one (conds : List DecodeCondition) :
    Except String (Nat × List DecodeCondition) :=
  match conds.find? (fun dc => dc.high_bit_exc = 120) with
  | none => Except.error "No decode condition that specifies end"
  | some dc =>
      let encoding_length := dc.low_bit_inc / 8
      if encoding_length > 15 then Except.error "Instruction is longer than 15 bytes"
      else Except.ok (encoding_length, conds)

/-- The `extract_ctx` loop over the contexts, numbering them in vector
order; the first failing context aborts with its exception. -/
def extract_ctx_go (cid : Nat) : List (List DecodeCondition) →
    Except String (List ExtractedCtx)
  | [] => Except.ok []
  | conds :: rest =>
      match extract_one conds with
      | Except.error e => Except.error e
      | Except.ok (len, cs) =>
          match extract_ctx_go (cid + 1) rest with
          | Except.error e => Except.error e
          | Except.ok out => Except.ok (⟨cid, len, cs⟩ :: out)

/-- `DecoderPrinter::extract_ctx`, taking the collected decode-condition
lists of the `VerifyInstruction` contexts. -/
def extract_ctx (ctxs : List (List DecodeCondition)) :
    Except String (List ExtractedCtx) :=
  extract_ctx_go 0 ctxs

/-- The success characterization the code actually implements (for the
amended claim C4): a context extracts successfully iff it has a condition
with `high_bit_exc == 120` and the first such condition's
`low_bit_inc / 8` is at most 15. -/
def validDecodeCtxSpec (conds : List DecodeCondition) : Bool :=
  match conds.find? (fun dc => dc.high_bit_exc = 120) with
  | none => false
  | some dc => dc.low_bit_inc / 8 ≤ 15

/-! ### Per-context match function body (`get_decode_context_function_body`) -/

/-- The fragment of the emitted-code AST (`Expr` in DecoderPrinter.hpp) that
the per-context match function body uses. -/
inductive CExpr where
  | VarRef (name : String)
  | IntLit (n : Int)
  | Uint64Lit (n : Nat)
  | Statement (e : CExpr)
  | Assign (lhs rhs : CExpr)
  | StatementBlock (es : List CExpr)
  | Ret (e : CExpr)
  | Mul (a b : CExpr)
  | Parenthesis (e : CExpr)
  | AndE (a b : CExpr)
  | Equal (a b : CExpr)
  | BitwiseOr (a b : CExpr)
  | BitwiseXor (a b : CExpr)
  | BitwiseNegate (e : CExpr)
  | CastToUint64 (e : CExpr)
  | EmptyE

/-- Modelled from the spec: `OptionalBitArray::to_uint64` is not among the
source files; per spec section 4.5 it packs the expected bits
(`to_val` of each tri-state) little-endian. -/
def byte_to_uint64 (byte : List InputType) : Nat :=
  packBits to_val byte

/-- Modelled from the spec: `OptionalBitArray::ignored_bits_to_uint64` is
not among the source files; per the spec glossary the ignore mask has its
1-bits exactly at the don't-cares. -/
def ignored_bits_to_uint64 (byte : List InputType) : Nat :=
  packBits (fun t => if t = InputType.ignore then 1 else 0) byte

/-- 64-bit `~x` on the generation-time constants. -/
def not64 (n : Nat) : Nat :=
  2 ^ 64 - 1 - n % 2 ^ 64

/-- A `decode_context_function_arg`: the 64 tri-states of one half together
with the variable holding that half. -/
structure DecodeFuncArg where
  byte : List InputType
  var : String

/-- `DecoderPrinter::get_comparison` (src/unnamed/part_001 lines 207-214). -/
def get_comparison (arg : DecodeFuncArg) : CExpr :=
  CExpr.Equal
    (CExpr.CastToUint64 (CExpr.Parenthesis
      (CExpr.BitwiseXor (CExpr.VarRef arg.var)
        (CExpr.BitwiseNegate (CExpr.Uint64Lit (byte_to_uint64 arg.byte))))))
    (CExpr.Uint64Lit (not64 (ignored_bits_to_uint64 arg.byte)))

/-- `DecoderPrinter::print_ignore_bits` (lines 216-223). -/
def print_ignore_bits (arg : DecodeFuncArg) : CExpr :=
  if contains_ignore_bit arg.byte ∧ ¬contains_only_ignore_bit arg.byte then
    CExpr.Statement (CExpr.Assign (CExpr.VarRef arg.var)
      (CExpr.BitwiseOr (CExpr.VarRef arg.var)
        (CExpr.Uint64Lit (ignored_bits_to_uint64 arg.byte))))
  else CExpr.EmptyE

/-- `DecoderPrinter::get_decode_context_function_body` (lines 185-205).
When neither half is entirely ignored, or exactly one comparison remains,
the emitted block is well defined; when `compare_exprs` is empty the source
evaluates `compare_exprs[0]` and `compare_exprs[1]` on an empty
`std::vector` — undefined behavior — which the embedding reports as
`none`. -/
def get_decode_context_function_body (args : DecodeFuncArg × DecodeFuncArg)
    (encoding_size : Int) : Option CExpr :=
  let block := [print_ignore_bits args.1, print_ignore_bits args.2]
  let compare_exprs :=
    (if ¬contains_only_ignore_bit args.1.byte then [get_comparison args.1] else []) ++
      (if ¬contains_only_ignore_bit args.2.byte then [get_comparison args.2] else [])
  if compare_exprs.length = 1 then
    some (CExpr.StatementBlock (block ++
      [CExpr.Ret (CExpr.Mul (CExpr.Parenthesis (compare_exprs.getD 0 CExpr.EmptyE))
        (CExpr.IntLit encoding_size))]))
  else
    match compare_exprs with
    | e0 :: e1 :: _ =>
        some (CExpr.StatementBlock (block ++
          [CExpr.Ret (CExpr.Mul (CExpr.Parenthesis (CExpr.AndE e0 e1))
            (CExpr.IntLit encoding_size))]))
    | _ => none

/-- `DecoderPrinter::get_decode_context_function_args` (lines 370-378). -/
def get_decode_context_function_args (conds : List DecodeCondition) :
    DecodeFuncArg × DecodeFuncArg :=
  let input_checks := convert_circIR_to_input_type_array conds
  (⟨convert_bytes_to_uints64 input_checks 0, "first8bytes"⟩,
   ⟨convert_bytes_to_uints64 input_checks 8, "second8bytes"⟩)

/-! ### Concrete decoder inputs used by the claims -/

/-- A length-delimiter decode condition: `high_bit_exc == 120`,
`low_bit_inc == 8` (a 1-byte encoding); its constant bits are never read
because every consumer skips conditions with `high_inc == 119`. -/
def lengthDelimCond : DecodeCondition := ⟨[], 8, 120⟩

def demoCtx1 : ExtractedCtx := ⟨0, 1, [⟨"00000000".toList, 0, 8⟩, lengthDelimCond]⟩

def demoCtx2 : ExtractedCtx := ⟨1, 1, [⟨"00000000".toList, 0, 8⟩, lengthDelimCond]⟩

def demoCtx3 : ExtractedCtx := ⟨2, 1, [⟨"01000000".toList, 0, 8⟩, lengthDelimCond]⟩

def demoCtx4 : ExtractedCtx := ⟨3, 1, [⟨"11000000".toList, 0, 8⟩, lengthDelimCond]⟩

/-- Four contexts whose only informative bits are 0 and 1. -/
def demoSplit : List ExtractedCtx := [demoCtx1, demoCtx2, demoCtx3, demoCtx4]

/-! ## Theorems for C3 -/

/-- C3 (code bug): at the root of the selection tree for `demoSplit` the
code picks bit 0 even though `min(|zeros|, |ones|)` is 1 there and 2 at
bit 1 — because `operator<` compares `std::min(zeros, ones).size()`, the
size of the lexicographically smaller pointer vector (bit 0 partitions into
zeros = [ctx1, ctx2, ctx3] and ones = [ctx4], whose lexicographic minimum
is the three-element vector), not `min(|zeros|, |ones|)` as the comment
above the function and the specification state. -/
theorem c3_chosen_bit_not_max_min_score :
    candidateIndex demoSplit [] = 0 ∧
    minSplitScore (groupAt demoSplit [] 0) = 1 ∧
    minSplitScore (groupAt demoSplit [] 1) = 2 ∧
    minSplitScore (groupAt demoSplit [] (candidateIndex demoSplit [])) <
      minSplitScore (groupAt demoSplit [] 1) := by
  refine ⟨by decide, by decide, by decide, by decide⟩

/-! ## Theorems for C4 -/

/-- A context whose two decode conditions disagree over bit 0, plus a valid
length delimiter. -/
def disagreeCtxConds : List DecodeCondition :=
  [⟨['0'], 0, 1⟩, ⟨['1'], 0, 1⟩, lengthDelimCond]

/-- C4 counterexample: two decode conditions that disagree over bit 0 do
not make extraction fail — `extract_ctx` succeeds on such a context, so
"error exactly in these cases" is false for the disagreement case. -/
theorem c4_disagreement_counterexample :
    (extract_ctx [disagreeCtxConds]).isOk = true ∧
    reqStep 0 InputType.ignore ⟨['0'], 0, 1⟩ = InputType.zero ∧
    reqStep 0 InputType.ignore ⟨['1'], 0, 1⟩ = InputType.one := by
  refine ⟨by decide, by decide, by decide⟩

theorem extract_ctx_go_isOk (cid : Nat) (ctxs : List (List DecodeCondition)) :
    (extract_ctx_go cid ctxs).isOk = ctxs.all validDecodeCtxSpec := by
  induction ctxs generalizing cid with
  | nil => rfl
  | cons conds rest ih =>
    simp only [extract_ctx_go, List.all_cons]
    cases hfind : conds.find? (fun dc => dc.high_bit_exc = 120) with
    | none =>
        simp [extract_one, hfind, validDecodeCtxSpec, Except.isOk, Except.toBool]
    | some dc =>
        by_cases hlen : dc.low_bit_inc / 8 > 15
        · simp [extract_one, hfind, hlen, validDecodeCtxSpec, Except.isOk, Except.toBool]
        · have hv : validDecodeCtxSpec conds = true := by
            simp [validDecodeCtxSpec, hfind]; omega
          simp only [extract_one, hfind, if_neg hlen]
          rw [hv, Bool.true_and]
          cases hgo : extract_ctx_go (cid + 1) rest with
          | error e => simpa [Except.isOk, Except.toBool, hgo] using ih (cid + 1)
          | ok out => simpa [Except.isOk, Except.toBool, hgo] using ih (cid + 1)

/-- C4 (amended): decode-context extraction reports an error exactly when
some context has no length-delimiter condition (`high_bit_exc == 120`) or
the first such condition gives `low_bit_inc / 8 > 15`; decode conditions
that disagree over the same bit are not reported — the last in-range
condition silently wins. -/
theorem c4_extraction_error_iff (ctxs : List (List DecodeCondition)) :
    (extract_ctx ctxs).isOk = true ↔ ∀ conds ∈ ctxs, validDecodeCtxSpec conds = true := by
  rw [extract_ctx, extract_ctx_go_isOk]
  simp [List.all_eq_true]

/-- C4 witness: the amended characterization applied to the concrete
disagreeing context. -/
theorem c4_extraction_error_iff_witness :
    (extract_ctx [disagreeCtxConds]).isOk = true ↔
      ∀ conds ∈ [disagreeCtxConds], validDecodeCtxSpec conds = true :=
  c4_extraction_error_iff [disagreeCtxConds]

/-! ## Theorems for C5 -/

/-- C5 (code bug): whenever both 64-bit halves of a context are entirely
ignored — in particular for a context whose conditions constrain zero
bits — `get_decode_context_function_body` indexes `compare_exprs[0]` and
`compare_exprs[1]` on an empty vector: the emitted body is undefined
behavior (`none` in the embedding), not a function returning the encoding
length. -/
theorem c5_zero_constraint_body_undefined (args : DecodeFuncArg × DecodeFuncArg)
    (encoding_size : Int)
    (h1 : contains_only_ignore_bit args.1.byte = true)
    (h2 : contains_only_ignore_bit args.2.byte = true) :
    get_decode_context_function_body args encoding_size = none := by
  simp [get_decode_context_function_body, h1, h2]

/-- C5 witness: the body builder evaluated on the arguments of the concrete
context whose only decode condition is the length delimiter (constraining
zero bits). -/
theorem c5_zero_constraint_body_undefined_witness :
    contains_only_ignore_bit (get_decode_context_function_args [lengthDelimCond]).1.byte
        = true ∧
    contains_only_ignore_bit (get_decode_context_function_args [lengthDelimCond]).2.byte
        = true ∧
    get_decode_context_function_body (get_decode_context_function_args [lengthDelimCond]) 1
        = none :=
  ⟨by decide, by decide,
    c5_zero_constraint_body_undefined (get_decode_context_function_args [lengthDelimCond]) 1
      (by decide) (by decide)⟩

/-! ## Theorems for C8 -/

theorem foldl_dup_idem {α β : Type} (f : α → β → α) (d : β)
    (hid : ∀ a, f (f a d) d = f a d) (init : α) (xs ys : List β) :
    List.foldl f init (xs ++ d :: ys) = List.foldl f init (xs ++ d :: d :: ys) := by
  rw [List.foldl_append, List.foldl_append]
  simp only [List.foldl_cons]
  rw [hid]

theorem convStep_eq (i c : Nat) (val : InputType) (d : DecodeCondition) :
    convStep i c val d =
      if d.low_bit_inc > (i + 1) * 8 ∨ d.high_bit_exc - 1 < i * 8 ∨ d.high_bit_exc - 1 = 119
      then val
      else if d.low_bit_inc ≤ i * 8 + c ∧ i * 8 + c ≤ d.high_bit_exc - 1
      then ctoit (d.bits.getD (i * 8 + c - d.low_bit_inc) '0')
      else val := rfl

theorem convStep_idem (i c : Nat) (val : InputType) (d : DecodeCondition) :
    convStep i c (convStep i c val d) d = convStep i c val d := by
  simp only [convStep_eq]
  by_cases h1 :
      d.low_bit_inc > (i + 1) * 8 ∨ d.high_bit_exc - 1 < i * 8 ∨ d.high_bit_exc - 1 = 119
  · simp only [if_pos h1]
  · by_cases h2 : d.low_bit_inc ≤ i * 8 + c ∧ i * 8 + c ≤ d.high_bit_exc - 1
    · simp only [if_neg h1, if_pos h2]
    · simp only [if_neg h1, if_neg h2]

theorem reqStep_eq (i : Nat) (val : InputType) (d : DecodeCondition) :
    reqStep i val d =
      if d.low_bit_inc > i ∨ d.high_bit_exc - 1 < i ∨ d.high_bit_exc - 1 = 119
      then val
      else if d.bits.getD (i - d.low_bit_inc) '0' = '0'
      then InputType.zero
      else InputType.one := rfl

theorem reqStep_idem (i : Nat) (val : InputType) (d : DecodeCondition) :
    reqStep i (reqStep i val d) d = reqStep i val d := by
  simp only [reqStep_eq]
  by_cases h1 : d.low_bit_inc > i ∨ d.high_bit_exc - 1 < i ∨ d.high_bit_exc - 1 = 119
  · simp only [if_pos h1]
  · by_cases h2 : d.bits.getD (i - d.low_bit_inc) '0' = '0'
    · simp only [if_neg h1, if_pos h2]
    · simp only [if_neg h1, if_neg h2]

/-- C8: inserting an additional copy of a decode condition next to the copy
already stored in the `decodeConditions` multiset (equivalent keys of an
`std::unordered_multiset` are adjacent in iteration) changes neither the
projected 16-byte tri-state pattern nor the per-bit tri-state by which the
selection tree partitions the contexts into zeros / ones / ignores. -/
theorem c8_duplicate_condition_no_semantic_weight (xs ys : List DecodeCondition)
    (d : DecodeCondition) :
    convert_circIR_to_input_type_array (xs ++ d :: ys) =
      convert_circIR_to_input_type_array (xs ++ d :: d :: ys) ∧
    ∀ i, reqValAt (xs ++ d :: ys) i = reqValAt (xs ++ d :: d :: ys) i := by
  constructor
  · unfold convert_circIR_to_input_type_array
    rw [List.map_inj_left]
    intro i _
    rw [List.map_inj_left]
    intro c _
    exact foldl_dup_idem (convStep i c) d (fun a => convStep_idem i c a d) InputType.ignore xs ys
  · intro i
    exact foldl_dup_idem (reqStep i) d (fun a => reqStep_idem i a d) InputType.ignore xs ys

/-! ## E-graph (src/include/circuitous/ADT/EGraph.hpp)

The `UnionFind` container itself lives in ADT/UnionFind.hpp, which is not
among the source files.  Modelled from the spec (section 4.1): dense ids
starting at 0, `make_set` appending a self-parent, `find` following parent
links; `EGraph::merge` additionally pins `merge(a, b) = a` on roots via its
`CHECK_EQ(new_id, a)`, so union links the second root under the first.
Path compression (`find_compress`) only reorganizes parent links without
changing the find mapping, so the embedding uses the pure `find` for both
entry points. -/

/-- Follow parent links with enough fuel to reach the root. -/
def ufFindAux (p : List Nat) : Nat → Nat → Nat
  | 0, i => i
  | fuel + 1, i =>
      let pi := p.getD i i
      if pi = i then i else ufFindAux p fuel pi

/-- `UnionFind::find` (and `find_compress`, which returns the same root). -/
def ufFind (p : List Nat) (i : Nat) : Nat :=
  ufFindAux p p.length i

/-- An e-node (`ENode<Storage>`): opaque storage plus child e-class ids. -/
structure ENodeE (S : Type) where
  storage : S
  children : List Nat
deriving DecidableEq, Repr

/-- An `EClass`: the member e-nodes and the parents list, both as indices
into the e-graph's node arena (the C++ stores `ENode*` pointers into
`_nodes`). -/
structure EClassE where
  nodes : List Nat
  parents : List Nat
deriving DecidableEq, Repr

/-- The `EGraph` state: `_unions` (parent vector), `_nodes` (arena),
`_ids` (per arena index, mirroring the `ENode* → Id` map), `_classes`
(association list keyed by class id) and `_pending`. -/
structure EGraphE (S : Type) where
  uf : List Nat := []
  nodes : List (ENodeE S) := []
  ids : List Nat := []
  classes : List (Nat × EClassE) := []
  pending : List Nat := []
deriving DecidableEq, Repr

namespace EGraphE

/-- `EGraph::find`. -/
def find {S : Type} (g : EGraphE S) (i : Nat) : Nat :=
  ufFind g.uf i

/-- `EGraph::canonicalize`: rewrite every child to its current root; also
the canonical key of a node (its storage plus canonicalized children). -/
def canonicalize {S : Type} (g : EGraphE S) (n : ENodeE S) : ENodeE S :=
  { n with children := n.children.map (ufFind g.uf) }

/-- `parents(child).push_back(node_ptr)` on the classes map. -/
def pushParent (classes : List (Nat × EClassE)) (child idx : Nat) :
    List (Nat × EClassE) :=
  classes.map fun kc =>
    if kc.1 = child then (kc.1, { kc.2 with parents := kc.2.parents ++ [idx] }) else kc

/-- `EGraph::add` (lines 196-212): canonicalize, append the node to the
arena, `create_singleton_eclass` (lines 176-187: fresh union-find id, fresh
singleton class), then register the node as parent of each child class. -/
def add {S : Type} (g : EGraphE S) (node : ENodeE S) : Nat × EGraphE S :=
  let n := canonicalize g node
  let idx := g.nodes.length
  let id := g.uf.length
  let classes1 := g.classes ++ [(id, ⟨[idx], []⟩)]
  let classes2 := n.children.foldl (fun cs c => pushParent cs c idx) classes1
  (id, { uf := g.uf ++ [id], nodes := g.nodes ++ [n], ids := g.ids ++ [id],
         classes := classes2, pending := g.pending })

/-- `_classes.at(id)` (an absent id yields the empty class; the source
would throw, and no theorem relies on that case). -/
def classOf {S : Type} (g : EGraphE S) (id : Nat) : EClassE :=
  (g.classes.lookup id).getD ⟨[], []⟩

/-- `EGraph::merge` (lines 217-241): canonicalize both sides, no-op on
equality, swap so the survivor has at least as many parents, union, mark
pending, and absorb the loser's class into the survivor. -/
def merge {S : Type} (g : EGraphE S) (a b : Nat) : Nat × EGraphE S :=
  let a1 := ufFind g.uf a
  let b1 := ufFind g.uf b
  if a1 = b1 then (a1, g)
  else
    let p :=
      if (classOf g a1).parents.length < (classOf g b1).parents.length then (b1, a1)
      else (a1, b1)
    let a2 := p.1
    let b2 := p.2
    let classB := classOf g b2
    let classes' := (g.classes.filter (fun kc => kc.1 ≠ b2)).map fun kc =>
      if kc.1 = a2 then
        (kc.1, ⟨kc.2.nodes ++ classB.nodes, kc.2.parents ++ classB.parents⟩)
      else kc
    (a2,
     { g with
       uf := g.uf.set b2 a2
       classes := classes'
       pending := g.pending ++ [a2] })

/-- First loop of `EGraph::rebuild`: canonicalize every node of a pending
class in place. -/
def canonClassNodes {S : Type} (g : EGraphE S) (id : Nat) : EGraphE S :=
  (classOf g id).nodes.foldl
    (fun acc ni =>
      match acc.nodes[ni]? with
      | some n => { acc with nodes := acc.nodes.set ni (canonicalize acc n) }
      | none => acc)
    g

/-- `EGraph::repair` (lines 268-294): canonicalize the class's nodes and
re-point their `_ids` entries, deduplicate the parents by the canonical
class id of each parent node (`try_emplace`, first occurrence wins), and
erase empty classes.  Note the dedup merges nothing: equal canonical keys
in different classes are left apart. -/
def repair {S : Type} (g : EGraphE S) (id : Nat) : EGraphE S :=
  let cls := classOf g id
  let g1 := cls.nodes.foldl
    (fun acc ni =>
      let acc' :=
        match acc.nodes[ni]? with
        | some n => { acc with nodes := acc.nodes.set ni (canonicalize acc n) }
        | none => acc
      { acc' with ids := acc'.ids.set ni (ufFind acc'.uf (acc'.ids.getD ni 0)) })
    g
  let newParents := cls.parents.foldl
    (fun np pi =>
      let pid := ufFind g1.uf (g1.ids.getD pi 0)
      if (np.lookup pid).isSome then np else np ++ [(pid, pi)])
    ([] : List (Nat × Nat))
  let parents' := newParents.map Prod.snd
  let classes1 := g1.classes.map fun kc =>
    if kc.1 = id then (kc.1, ⟨kc.2.nodes, parents'⟩) else kc
  { g1 with classes := classes1.filter fun kc => ¬kc.2.nodes.isEmpty }

/-- `EGraph::rebuild` (lines 250-266). -/
def rebuild {S : Type} (g : EGraphE S) : EGraphE S :=
  let g1 := g.pending.foldl canonClassNodes g
  let changed := g1.pending.foldl
    (fun acc i =>
      let r := ufFind g1.uf i
      if r ∈ acc then acc else acc ++ [r])
    []
  let g2 := changed.foldl repair g1
  { g2 with pending := [] }

end EGraphE

/-! ## Theorems for C1 and C2 -/

/-- Adding the leaf node `(5, [])` to the empty e-graph. -/
def egAdd1 : Nat × EGraphE Nat :=
  EGraphE.add {} ⟨5, []⟩

/-- Adding the very same node a second time. -/
def egAdd2 : Nat × EGraphE Nat :=
  EGraphE.add egAdd1.2 ⟨5, []⟩

/-- C1 counterexample: after adding the childless node `(5, [])`, adding a
node with the identical canonical key does not return the existing class 0:
`add` hands out the fresh id 1 and the e-graph now holds two classes. -/
theorem c1_add_no_hashcons_counterexample :
    egAdd1.2.nodes = [⟨5, []⟩] ∧
    EGraphE.canonicalize egAdd1.2 ⟨5, []⟩ = ⟨5, []⟩ ∧
    egAdd1.1 = 0 ∧
    egAdd2.1 = 1 ∧
    egAdd2.1 ≠ egAdd1.1 ∧
    egAdd2.2.classes.map Prod.fst = [0, 1] := by
  decide

theorem pushParent_map_fst (cs : List (Nat × EClassE)) (c i : Nat) :
    (EGraphE.pushParent cs c i).map Prod.fst = cs.map Prod.fst := by
  unfold EGraphE.pushParent
  rw [List.map_map, List.map_inj_left]
  intro kc _
  by_cases h : kc.1 = c <;> simp [h]

theorem foldl_pushParent_map_fst (children : List Nat) (cs : List (Nat × EClassE)) (i : Nat) :
    ((children.foldl (fun acc c => EGraphE.pushParent acc c i) cs).map Prod.fst) =
      cs.map Prod.fst := by
  induction children generalizing cs with
  | nil => rfl
  | cons c rest ih => rw [List.foldl_cons, ih, pushParent_map_fst]

theorem pushParent_getLast? (cs : List (Nat × EClassE)) (c i k : Nat) (v : EClassE)
    (hlast : cs.getLast? = some (k, v)) (hk : k ≠ c) :
    (EGraphE.pushParent cs c i).getLast? = some (k, v) := by
  unfold EGraphE.pushParent
  rw [List.getLast?_map, hlast]
  simp [hk]

theorem foldl_pushParent_getLast? (children : List Nat) (cs : List (Nat × EClassE))
    (i k : Nat) (v : EClassE) (hlast : cs.getLast? = some (k, v))
    (hk : ∀ c ∈ children, c ≠ k) :
    ((children.foldl (fun acc c => EGraphE.pushParent acc c i) cs).getLast?) = some (k, v) := by
  induction children generalizing cs with
  | nil => exact hlast
  | cons c rest ih =>
    rw [List.foldl_cons]
    refine ih _ ?_ (fun x hx => hk x (List.mem_cons_of_mem c hx))
    exact pushParent_getLast? cs c i k v hlast fun h => hk c (List.mem_cons_self c rest) h.symm

/-- C1 (amended): `add` never performs a canonical-key lookup; for every
e-graph and every node (whose canonicalized children do not collide with
the fresh id, which holds whenever the children are valid class ids) it
allocates the next dense union-find id, appends the canonicalized node to
the arena, and appends a fresh singleton e-class holding exactly that node
under the fresh id — regardless of whether an e-node with the same
canonical key is already present. -/
theorem c1_add_always_fresh_singleton {S : Type} (g : EGraphE S) (n : ENodeE S)
    (hch : ∀ c ∈ (EGraphE.canonicalize g n).children, c ≠ g.uf.length) :
    (EGraphE.add g n).1 = g.uf.length ∧
    (EGraphE.add g n).2.uf = g.uf ++ [g.uf.length] ∧
    (EGraphE.add g n).2.nodes = g.nodes ++ [EGraphE.canonicalize g n] ∧
    (EGraphE.add g n).2.ids = g.ids ++ [g.uf.length] ∧
    (EGraphE.add g n).2.classes.map Prod.fst = g.classes.map Prod.fst ++ [g.uf.length] ∧
    (EGraphE.add g n).2.classes.getLast? = some (g.uf.length, ⟨[g.nodes.length], []⟩) := by
  refine ⟨rfl, rfl, rfl, rfl, ?_, ?_⟩
  · show ((EGraphE.canonicalize g n).children.foldl
        (fun cs c => EGraphE.pushParent cs c g.nodes.length)
        (g.classes ++ [(g.uf.length, ⟨[g.nodes.length], []⟩)])).map Prod.fst =
      g.classes.map Prod.fst ++ [g.uf.length]
    rw [foldl_pushParent_map_fst, List.map_append]
    rfl
  · show ((EGraphE.canonicalize g n).children.foldl
        (fun cs c => EGraphE.pushParent cs c g.nodes.length)
        (g.classes ++ [(g.uf.length, ⟨[g.nodes.length], []⟩)])).getLast? =
      some (g.uf.length, ⟨[g.nodes.length], []⟩)
    refine foldl_pushParent_getLast? _ _ _ _ _ ?_ ?_
    · rw [List.getLast?_concat]
    · intro c hc
      exact hch c hc

/-- C1 witness: the amended theorem applied to the one-node e-graph
`egAdd1.2` and the node `(7, [0])`, whose canonical child 0 differs from
the fresh id 1. -/
theorem c1_add_always_fresh_singleton_witness :
    (∀ c ∈ (EGraphE.canonicalize egAdd1.2 ⟨7, [0]⟩).children, c ≠ egAdd1.2.uf.length) ∧
    ((EGraphE.add egAdd1.2 ⟨7, [0]⟩).1 = egAdd1.2.uf.length ∧
     (EGraphE.add egAdd1.2 ⟨7, [0]⟩).2.uf = egAdd1.2.uf ++ [egAdd1.2.uf.length] ∧
     (EGraphE.add egAdd1.2 ⟨7, [0]⟩).2.nodes =
       egAdd1.2.nodes ++ [EGraphE.canonicalize egAdd1.2 ⟨7, [0]⟩] ∧
     (EGraphE.add egAdd1.2 ⟨7, [0]⟩).2.ids = egAdd1.2.ids ++ [egAdd1.2.uf.length] ∧
     (EGraphE.add egAdd1.2 ⟨7, [0]⟩).2.classes.map Prod.fst =
       egAdd1.2.classes.map Prod.fst ++ [egAdd1.2.uf.length] ∧
     (EGraphE.add egAdd1.2 ⟨7, [0]⟩).2.classes.getLast? =
       some (egAdd1.2.uf.length, ⟨[egAdd1.2.nodes.length], []⟩)) :=
  ⟨by decide, c1_add_always_fresh_singleton egAdd1.2 ⟨7, [0]⟩ (by decide)⟩

/-- The C2 scenario: leaves `a = (0, [])`, `b = (1, [])`, then
`f(a) = (2, [class a])` and `f(b) = (2, [class b])`, then `merge(a, b)`
and `rebuild`. -/
def egC2s1 : Nat × EGraphE Nat := EGraphE.add {} ⟨0, []⟩

def egC2s2 : Nat × EGraphE Nat := EGraphE.add egC2s1.2 ⟨1, []⟩

def egC2s3 : Nat × EGraphE Nat := EGraphE.add egC2s2.2 ⟨2, [0]⟩

def egC2s4 : Nat × EGraphE Nat := EGraphE.add egC2s3.2 ⟨2, [1]⟩

def egC2s5 : Nat × EGraphE Nat := EGraphE.merge egC2s4.2 0 1

/-- The e-graph after the merge batch and its `rebuild`. -/
def egC2Final : EGraphE Nat := EGraphE.rebuild egC2s5.2

/-- C2 (code bug): after `rebuild` of the state built by four `add`s and
one `merge`, the two f-nodes (arena indices 2 and 3) have the same
canonical key `(2, [0])`, yet their classes are still distinct — `repair`
deduplicates parents by class id only and never merges congruent classes,
contradicting its own comment ("equal parents get merged and put on the
worklist") and rebuild's ("restores ... congruence equality"). -/
theorem c2_congruence_broken_after_rebuild :
    (egC2Final.nodes[2]?.map (EGraphE.canonicalize egC2Final) = some ⟨2, [0]⟩) ∧
    (egC2Final.nodes[3]?.map (EGraphE.canonicalize egC2Final) = some ⟨2, [0]⟩) ∧
    EGraphE.find egC2Final (egC2Final.ids.getD 2 0) = 2 ∧
    EGraphE.find egC2Final (egC2Final.ids.getD 3 0) = 3 ∧
    EGraphE.find egC2Final (egC2Final.ids.getD 2 0) ≠
      EGraphE.find egC2Final (egC2Final.ids.getD 3 0) ∧
    egC2Final.pending = [] := by
  decide

/-! ## E-matching (src/include/eqsat/algo/ematch.hpp)

The pattern types and the `graph_like` e-graph interface come from
eqsat/pattern and eqsat/core headers that are not among the source files;
they are modelled from the spec (section 3, Rewrite Rule; section 4.4):
a pattern is a tree of constants, operation names, places and lists.  The
source's `match` overloads for `label_t` and `match_expr` call
`__builtin_abort` ("not implemented"), so the embedded pattern type keeps
the implemented constructors.  An e-node exposes `node_name`,
`extract_constant` and its child handles; the e-graph exposes its classes,
`find` (canonicalization of handles, embedded with the same `ufFind` as the
e-graph above) and `eclass`. -/

/-- An `atom_t` of the rule DSL, restricted to the constructors whose
`match` is implemented. -/
inductive AtomP where
  | constant (n : Nat)
  | operation (s : String)
  | place (s : String)
deriving DecidableEq, Repr

/-- A `simple_expr`: an atom or an `expr_list` of sub-expressions (the
first entry is the head matched against the node itself). -/
inductive SimpleExprP where
  | atom (a : AtomP)
  | list (es : List SimpleExprP)

/-- A matcher-visible e-node. -/
structure ENodeM where
  name : String
  constant : Option Nat
  children : List Nat
deriving DecidableEq, Repr

/-- A matcher-visible e-class: its member nodes. -/
structure EClassM where
  nodes : List ENodeM
deriving DecidableEq, Repr

/-- The matcher-visible e-graph: classes keyed by id plus the union-find
parent vector behind `find`. -/
structure EGraphM where
  uf : List Nat
  classes : List (Nat × EClassM)
deriving DecidableEq, Repr

/-- The nodes of the class a (possibly non-canonical) handle refers to. -/
def eclassNodes (g : EGraphM) (h : Nat) : List ENodeM :=
  ((g.classes.lookup (ufFind g.uf h)).getD ⟨[]⟩).nodes

mutual

/-- In-order list of the place names occurring in a pattern. -/
def collectPlaces : SimpleExprP → List String
  | SimpleExprP.atom (AtomP.place s) => [s]
  | SimpleExprP.atom _ => []
  | SimpleExprP.list es => collectPlacesList es

/-- In-order list of the place names of a pattern list. -/
def collectPlacesList : List SimpleExprP → List String
  | [] => []
  | e :: es => collectPlaces e ++ collectPlacesList es

end

/-- Modelled from the spec: `gather_places` (eqsat/pattern, not among the
source files) returns the places declared by the pattern, each once; the
embedding keeps first-occurrence order. -/
def gather_places (e : SimpleExprP) : List String :=
  (collectPlaces e).foldl (fun acc p => if p ∈ acc then acc else acc ++ [p]) []

/-- `place_index` (ematch.hpp lines 72-74): `std::distance` from `begin()`
to the first occurrence (the length when absent, as with `std::find`
returning `end()`). -/
def place_index (p : String) (places : List String) : Nat :=
  places.indexOf p

/-- `matched_places_t`: a map from place index to the bound class handle,
as its insertion-ordered association list. -/
abbrev MatchedPlaces : Type := List (Nat × Nat)

/-- Map lookup. -/
def mpFind (mp : MatchedPlaces) (k : Nat) : Option Nat :=
  mp.lookup k

/-- `emplace`: insert only when the key is absent. -/
def mpEmplace (mp : MatchedPlaces) (k v : Nat) : MatchedPlaces :=
  if (mp.lookup k).isSome then mp else mp ++ [(k, v)]

/-- A `match_result`: the root handle and the bindings. -/
structure MatchResult where
  root : Nat
  matched_places : MatchedPlaces
deriving DecidableEq, Repr

/-- `match(constant_t, node, ...)` (ematch.hpp lines 43-54). -/
def matchConstant (c : Nat) (node : ENodeM) (handle : Nat) (mp : MatchedPlaces) :
    List MatchResult :=
  match node.constant with
  | some k => if k = c then [⟨handle, mp⟩] else []
  | none => []

/-- `match(operation_t, node, ...)` (lines 59-70). -/
def matchOperation (o : String) (node : ENodeM) (handle : Nat) (mp : MatchedPlaces) :
    List MatchResult :=
  if node.name = o then [⟨handle, mp⟩] else []

/-- `match(place_t, node, ...)` (lines 79-97): reject a handle that
conflicts with an existing binding of the same place, otherwise yield the
bindings extended (`emplace`) with this place. -/
def matchPlace (p : String) (places : List String) (node : ENodeM) (handle : Nat)
    (mp : MatchedPlaces) : List MatchResult :=
  let id := place_index p places
  match mpFind mp id with
  | some h => if h ≠ handle then [] else [⟨handle, mpEmplace mp id handle⟩]
  | none => [⟨handle, mpEmplace mp id handle⟩]

/-- `match(atom_t, node, ...)` (lines 117-128): dispatch on the variant. -/
def matchAtom (a : AtomP) (places : List String) (node : ENodeM) (handle : Nat)
    (mp : MatchedPlaces) : List MatchResult :=
  match a with
  | AtomP.constant c => matchConstant c node handle mp
  | AtomP.operation o => matchOperation o node handle mp
  | AtomP.place p => matchPlace p places node handle mp

mutual

/-- `match(simple_expr, node, ...)` together with `match(expr_list, node,
...)` (lines 160-204): an atom dispatches; a list matches its head against
the node, then — unless the tail is empty — requires the tail's length to
equal the node's child count and matches the tail against the child
classes, keeping the head's root.  (`list.front()` on an empty pattern
list is undefined behavior in the source and yields no match here.) -/
def matchSimple (g : EGraphM) (places : List String) (e : SimpleExprP) (node : ENodeM)
    (handle : Nat) (mp : MatchedPlaces) : List MatchResult :=
  match e with
  | SimpleExprP.atom a => matchAtom a places node handle mp
  | SimpleExprP.list es =>
      match es with
      | [] => []
      | head :: args =>
          (matchSimple g places head node handle mp).flatMap fun headR =>
            if args.isEmpty then [headR]
            else if args.length ≠ node.children.length then []
            else
              (matchChildren g places args node.children headR.matched_places).map fun m =>
                { root := headR.root, matched_places := m.matched_places }
termination_by (sizeOf e, 0)

/-- `match_children` (lines 134-158): match the first pattern child
against the first child class; with one pattern child yield those results,
otherwise thread the bindings through the remaining children. -/
def matchChildren (g : EGraphM) (places : List String) (ps : List SimpleExprP)
    (cs : List Nat) (mp : MatchedPlaces) : List MatchResult :=
  match ps, cs with
  | [], _ => []
  | _ :: _, [] => []
  | p :: ps', c :: cs' =>
      if ps'.isEmpty then matchClass g places p c mp
      else
        (matchClass g places p c mp).flatMap fun m =>
          matchChildren g places ps' cs' m.matched_places
termination_by (sizeOf ps, 2)

/-- `match(simple_expr, eclass, ...)` (lines 206-217): try every node of
the class. -/
def matchClass (g : EGraphM) (places : List String) (e : SimpleExprP) (h : Nat)
    (mp : MatchedPlaces) : List MatchResult :=
  (eclassNodes g h).flatMap fun node => matchSimple g places e node (ufFind g.uf h) mp
termination_by (sizeOf e, 1)

end

/-- Top-level `match(match_pattern, egraph)` (lines 234-263): for every
e-class and every node in it, match the pattern's action starting from
empty bindings, and keep only results whose bindings cover every declared
place. -/
def ematch (pat : SimpleExprP) (g : EGraphM) : List MatchResult :=
  let places := gather_places pat
  (g.classes.flatMap fun kc =>
    kc.2.nodes.flatMap fun node =>
      matchSimple g places pat node (ufFind g.uf kc.1) []).filter
    fun m => m.matched_places.length = places.length

/-! ## Theorems for C6 -/

/-- Well-formed bindings: distinct keys, all of them indices into the
pattern's place list. -/
def MPok (L : Nat) (mp : MatchedPlaces) : Prop :=
  (mp.map Prod.fst).Nodup ∧ ∀ k ∈ mp.map Prod.fst, k < L

theorem mp_lookup_isSome_iff (mp : MatchedPlaces) (k : Nat) :
    (List.lookup k mp).isSome = true ↔ k ∈ mp.map Prod.fst := by
  induction mp with
  | nil => simp [List.lookup]
  | cons kv rest ih =>
    by_cases h : k = kv.1
    · simp [List.lookup, h]
    · have hbeq : (k == kv.1) = false := by simpa using h
      simp [List.lookup, hbeq, ih, h]

theorem lookup_append_single (mp : MatchedPlaces) (k v : Nat)
    (h : List.lookup k mp = none) :
    List.lookup k (mp ++ [(k, v)]) = some v := by
  induction mp with
  | nil => simp [List.lookup]
  | cons kv rest ih =>
    by_cases hk : k = kv.1
    · simp [List.lookup, hk] at h
    · have hbeq : (k == kv.1) = false := by simpa using hk
      simp only [List.lookup, hbeq, List.cons_append] at h ⊢
      exact ih h

theorem mpEmplace_mpok (L : Nat) (mp : MatchedPlaces) (k v : Nat)
    (hmp : MPok L mp) (hk : k < L) : MPok L (mpEmplace mp k v) := by
  unfold mpEmplace
  by_cases h : (List.lookup k mp).isSome = true
  · simp only [h, if_pos]
    simpa using hmp
  · rw [if_neg (by simpa using h)]
    obtain ⟨h1, h2⟩ := hmp
    have hnot : k ∉ mp.map Prod.fst := fun hc => h ((mp_lookup_isSome_iff mp k).mpr hc)
    constructor
    · rw [List.map_append]
      simp [List.nodup_append, h1, hnot]
    · intro x hx
      rw [List.map_append] at hx
      rcases List.mem_append.mp hx with hx | hx
      · exact h2 x hx
      · simp at hx
        omega

theorem matchAtom_mpok (a : AtomP) (places : List String) (node : ENodeM)
    (handle : Nat) (mp : MatchedPlaces) (hmp : MPok places.length mp)
    (hpl : ∀ q ∈ collectPlaces (SimpleExprP.atom a), q ∈ places) :
    ∀ m ∈ matchAtom a places node handle mp, MPok places.length m.matched_places := by
  intro m hm
  cases a with
  | constant c =>
    simp only [matchAtom, matchConstant] at hm
    split at hm
    · split at hm
      · simp at hm
        rw [hm]
        exact hmp
      · simp at hm
    · simp at hm
  | operation o =>
    simp only [matchAtom, matchOperation] at hm
    split at hm
    · simp at hm
      rw [hm]
      exact hmp
    · simp at hm
  | place p =>
    have hp : p ∈ places := by
      apply hpl
      simp [collectPlaces]
    have hidx : place_index p places < places.length := by
      unfold place_index
      exact List.indexOf_lt_length.mpr hp
    simp only [matchAtom, matchPlace] at hm
    split at hm
    · split at hm
      · simp at hm
      · simp at hm
        rw [hm]
        exact mpEmplace_mpok places.length mp _ handle hmp hidx
    · simp at hm
      rw [hm]
      exact mpEmplace_mpok places.length mp _ handle hmp hidx

mutual

theorem matchSimple_mpok (g : EGraphM) (places : List String) (e : SimpleExprP)
    (node : ENodeM) (handle : Nat) (mp : MatchedPlaces)
    (hmp : MPok places.length mp)
    (hpl : ∀ q ∈ collectPlaces e, q ∈ places) :
    ∀ m ∈ matchSimple g places e node handle mp, MPok places.length m.matched_places := by
  intro m hm
  cases e with
  | atom a =>
    simp only [matchSimple] at hm
    exact matchAtom_mpok a places node handle mp hmp hpl m hm
  | list es =>
    cases es with
    | nil =>
      simp only [matchSimple] at hm
      simp at hm
    | cons head args =>
      simp only [matchSimple] at hm
      rw [List.mem_flatMap] at hm
      obtain ⟨headR, hH, hm⟩ := hm
      have hplHead : ∀ q ∈ collectPlaces head, q ∈ places := by
        intro q hq
        apply hpl
        simp only [collectPlaces, collectPlacesList]
        exact List.mem_append.mpr (Or.inl hq)
      have hHok :=
        matchSimple_mpok g places head node handle mp hmp hplHead headR hH
      split at hm
      · simp at hm
        rw [hm]
        exact hHok
      · split at hm
        · simp at hm
        · rw [List.mem_map] at hm
          obtain ⟨m', hm', hmeq⟩ := hm
          have hplArgs : ∀ q ∈ collectPlacesList args, q ∈ places := by
            intro q hq
            apply hpl
            simp only [collectPlaces, collectPlacesList]
            exact List.mem_append.mpr (Or.inr hq)
          have :=
            matchChildren_mpok g places args node.children headR.matched_places
              hHok hplArgs m' hm'
          rw [← hmeq]
          exact this
termination_by (sizeOf e, 0)

theorem matchChildren_mpok (g : EGraphM) (places : List String)
    (ps : List SimpleExprP) (cs : List Nat) (mp : MatchedPlaces)
    (hmp : MPok places.length mp)
    (hpl : ∀ q ∈ collectPlacesList ps, q ∈ places) :
    ∀ m ∈ matchChildren g places ps cs mp, MPok places.length m.matched_places := by
  intro m hm
  cases ps with
  | nil =>
    simp only [matchChildren] at hm
    simp at hm
  | cons p ps' =>
    cases cs with
    | nil =>
      simp only [matchChildren] at hm
      simp at hm
    | cons c cs' =>
      simp only [matchChildren] at hm
      have hplp : ∀ q ∈ collectPlaces p, q ∈ places := by
        intro q hq
        apply hpl
        simp only [collectPlacesList]
        exact List.mem_append.mpr (Or.inl hq)
      split at hm
      · exact matchClass_mpok g places p c mp hmp hplp m hm
      · rw [List.mem_flatMap] at hm
        obtain ⟨m1, h1, hm⟩ := hm
        have h1ok := matchClass_mpok g places p c mp hmp hplp m1 h1
        have hplps' : ∀ q ∈ collectPlacesList ps', q ∈ places := by
          intro q hq
          apply hpl
          simp only [collectPlacesList]
          exact List.mem_append.mpr (Or.inr hq)
        exact
          matchChildren_mpok g places ps' cs' m1.matched_places h1ok hplps' m hm
termination_by (sizeOf ps, 2)

theorem matchClass_mpok (g : EGraphM) (places : List String) (e : SimpleExprP)
    (h : Nat) (mp : MatchedPlaces) (hmp : MPok places.length mp)
    (hpl : ∀ q ∈ collectPlaces e, q ∈ places) :
    ∀ m ∈ matchClass g places e h mp, MPok places.length m.matched_places := by
  intro m hm
  simp only [matchClass] at hm
  rw [List.mem_flatMap] at hm
  obtain ⟨node, hn, hm⟩ := hm
  exact matchSimple_mpok g places e node (ufFind g.uf h) mp hmp hpl m hm
termination_by (sizeOf e, 1)

end

theorem mem_foldl_ins (l acc : List String) (x : String) :
    x ∈ l.foldl (fun acc p => if p ∈ acc then acc else acc ++ [p]) acc ↔
      x ∈ acc ∨ x ∈ l := by
  induction l generalizing acc with
  | nil => simp
  | cons p rest ih =>
    simp only [List.foldl_cons]
    rw [ih]
    by_cases h : p ∈ acc
    · rw [if_pos h]
      constructor
      · rintro (hx | hx)
        · exact Or.inl hx
        · exact Or.inr (List.mem_cons_of_mem p hx)
      · rintro (hx | hx)
        · exact Or.inl hx
        · rcases List.mem_cons.mp hx with rfl | hx
          · exact Or.inl h
          · exact Or.inr hx
    · rw [if_neg h]
      simp only [List.mem_append, List.mem_cons]
      tauto

theorem collect_mem_gather (e : SimpleExprP) (q : String) :
    q ∈ gather_places e ↔ q ∈ collectPlaces e := by
  unfold gather_places
  rw [mem_foldl_ins]
  simp

theorem keys_complete (mp : MatchedPlaces) (L : Nat)
    (h1 : (mp.map Prod.fst).Nodup) (h2 : ∀ k ∈ mp.map Prod.fst, k < L)
    (h3 : mp.length = L) : ∀ j, j < L → j ∈ mp.map Prod.fst := by
  intro j hj
  have hsub : (mp.map Prod.fst).toFinset ⊆ Finset.range L := by
    intro x hx
    rw [List.mem_toFinset] at hx
    exact Finset.mem_range.mpr (h2 x hx)
  have hcard : (Finset.range L).card ≤ (mp.map Prod.fst).toFinset.card := by
    rw [Finset.card_range, List.toFinset_card_of_nodup h1, List.length_map, h3]
  have heq := Finset.eq_of_subset_of_card_le hsub hcard
  have hjmem : j ∈ (mp.map Prod.fst).toFinset := by
    rw [heq]
    exact Finset.mem_range.mpr hj
  exact List.mem_toFinset.mp hjmem

/-- C6: (1) every result yielded by the top-level `match(pattern, graph)`
binds every place declared by the pattern; (2) the place matcher rejects a
candidate node whose class differs from an existing binding of that place
(linearity enforcement); (3) any result it does yield binds the place to
exactly the candidate's class handle — so repeated occurrences of one place
are always bound to the same e-class id. -/
theorem c6_match_coverage_and_linearity :
    (∀ (pat : SimpleExprP) (g : EGraphM) (m : MatchResult), m ∈ ematch pat g →
      ∀ q ∈ gather_places pat,
        mpFind m.matched_places (place_index q (gather_places pat)) ≠ none) ∧
    (∀ (p : String) (places : List String) (node : ENodeM) (handle : Nat)
        (mp : MatchedPlaces) (h : Nat),
      mpFind mp (place_index p places) = some h → h ≠ handle →
        matchPlace p places node handle mp = []) ∧
    (∀ (p : String) (places : List String) (node : ENodeM) (handle : Nat)
        (mp : MatchedPlaces) (m : MatchResult), m ∈ matchPlace p places node handle mp →
      mpFind m.matched_places (place_index p places) = some handle) := by
  refine ⟨?_, ?_, ?_⟩
  · intro pat g m hm q hq
    simp only [ematch] at hm
    rw [List.mem_filter] at hm
    obtain ⟨hmem, hlen⟩ := hm
    rw [List.mem_flatMap] at hmem
    obtain ⟨kc, _, hmem⟩ := hmem
    rw [List.mem_flatMap] at hmem
    obtain ⟨node, _, hmem⟩ := hmem
    have hok :=
      matchSimple_mpok g (gather_places pat) pat node (ufFind g.uf kc.1) []
        ⟨List.nodup_nil, by simp⟩
        (fun r hr => (collect_mem_gather pat r).mpr hr) m hmem
    have hlen' : m.matched_places.length = (gather_places pat).length :=
      of_decide_eq_true hlen
    have hidx : place_index q (gather_places pat) < (gather_places pat).length := by
      unfold place_index
      exact List.indexOf_lt_length.mpr hq
    have hkey :=
      keys_complete m.matched_places (gather_places pat).length hok.1 hok.2 hlen'
        (place_index q (gather_places pat)) hidx
    have hsome := (mp_lookup_isSome_iff m.matched_places _).mpr hkey
    intro hnone
    unfold mpFind at hnone
    rw [hnone] at hsome
    simp at hsome
  · intro p places node handle mp h hfind hne
    simp only [matchPlace]
    rw [hfind]
    simp [hne]
  · intro p places node handle mp m hm
    simp only [matchPlace] at hm
    cases hfind : mpFind mp (place_index p places) with
    | some h =>
      rw [hfind] at hm
      have hfind' : List.lookup (place_index p places) mp = some h := hfind
      by_cases hne : h = handle
      · simp [hne] at hm
        rw [hm]
        show mpFind (mpEmplace mp (place_index p places) handle) (place_index p places) =
          some handle
        unfold mpFind mpEmplace
        simp only [hfind', Option.isSome_some, if_true]
        rw [hne]
      · simp [hne] at hm
    | none =>
      rw [hfind] at hm
      have hfind' : List.lookup (place_index p places) mp = none := hfind
      simp at hm
      rw [hm]
      show mpFind (mpEmplace mp (place_index p places) handle) (place_index p places) =
        some handle
      unfold mpFind mpEmplace
      simp only [hfind', Option.isSome_none, Bool.false_eq_true, if_false]
      exact lookup_append_single mp _ handle hfind'

/-- The e-class of the leaf node `a`. -/
def demoNodeA : ENodeM := ⟨"a", none, []⟩

/-- A node `add(a, a)` whose two children are the same class 0. -/
def demoNodeAdd : ENodeM := ⟨"add", none, [0, 0]⟩

/-- A two-class e-graph: class 0 holds `a`, class 1 holds `add(a, a)`. -/
def demoEGraphM : EGraphM := ⟨[0, 1], [(0, ⟨[demoNodeA]⟩), (1, ⟨[demoNodeAdd]⟩)]⟩

/-- The non-linear pattern `(add ?x ?x)`. -/
def demoPattern : SimpleExprP :=
  SimpleExprP.list [SimpleExprP.atom (AtomP.operation "add"),
    SimpleExprP.atom (AtomP.place "x"), SimpleExprP.atom (AtomP.place "x")]

theorem demo_ematch_eval :
    ematch demoPattern demoEGraphM = [⟨1, [(0, 0)]⟩] := by
  simp [ematch, demoPattern, demoEGraphM, matchSimple, matchChildren, matchClass,
    matchAtom, matchPlace, matchOperation, matchConstant, gather_places, collectPlaces,
    collectPlacesList, eclassNodes, ufFind, ufFindAux, mpEmplace, mpFind, place_index,
    demoNodeA, demoNodeAdd]
  decide

theorem demo_gather_eval : gather_places demoPattern = ["x"] := by
  simp [gather_places, collectPlaces, collectPlacesList, demoPattern]

/-- C6 witness: coverage applied to the single match of `(add ?x ?x)` in
the demo e-graph, and the linearity parts applied to a conflicting and a
fresh binding of `?x`. -/
theorem c6_match_coverage_and_linearity_witness :
    (MatchResult.mk 1 [(0, 0)] ∈ ematch demoPattern demoEGraphM) ∧
    mpFind (MatchResult.mk 1 [(0, 0)]).matched_places
      (place_index "x" (gather_places demoPattern)) ≠ none ∧
    mpFind [(0, 3)] (place_index "x" ["x"]) = some 3 ∧
    matchPlace "x" ["x"] demoNodeA 5 [(0, 3)] = [] ∧
    (MatchResult.mk 0 [(0, 0)] ∈ matchPlace "x" ["x"] demoNodeA 0 []) ∧
    mpFind (MatchResult.mk 0 [(0, 0)]).matched_places (place_index "x" ["x"]) = some 0 := by
  have hmem : MatchResult.mk 1 [(0, 0)] ∈ ematch demoPattern demoEGraphM := by
    rw [demo_ematch_eval]
    exact List.mem_singleton_self _
  have hq : "x" ∈ gather_places demoPattern := by
    rw [demo_gather_eval]
    exact List.mem_singleton_self _
  have hp5 : MatchResult.mk 0 [(0, 0)] ∈ matchPlace "x" ["x"] demoNodeA 0 [] := by
    decide
  refine ⟨hmem, ?_, by decide, ?_, hp5, ?_⟩
  · exact c6_match_coverage_and_linearity.1 demoPattern demoEGraphM _ hmem "x" hq
  · exact c6_match_coverage_and_linearity.2.1 "x" ["x"] demoNodeA 5 [(0, 3)] 3
      (by decide) (by decide)
  · exact c6_match_coverage_and_linearity.2.2 "x" ["x"] demoNodeA 0 [] _ hp5
